import Mathlib

/-!
Shallow embedding of the AA-tree key-value store from `src/aa.rs`
(`rust-multimap`).  The Rust `Link<T> = Option<Box<T>>` becomes
`Option (Node K V)`; machine `uint` levels and sizes become `Nat`
(no arithmetic here can overflow in any reachable state, and the
source relies on no wrap-around).  The imperative, raw-pointer
bottom-up rebalancing loop of `Tree::insert` is rendered as the
equivalent structural recursion: each ancestor on the search path
applies `skew` then `split` to its own slot after the child slot has
been updated, deepest first, exactly as the `path.pop()` loop does.
-/

universe u v

namespace AA

/-- `struct Node<K, V>` from `src/aa.rs`: key, value, `left` and
`right` links (`Option<Box<Node>>`), and an integer `level`. -/
inductive Node (K : Type u) (V : Type v) : Type (max u v) where
  | mk (key : K) (value : V) (left : Option (Node K V))
      (right : Option (Node K V)) (level : Nat) : Node K V

namespace Node

variable {K : Type u} {V : Type v}

def key : Node K V → K
  | ⟨k, _, _, _, _⟩ => k

def value : Node K V → V
  | ⟨_, v, _, _, _⟩ => v

def left : Node K V → Option (Node K V)
  | ⟨_, _, l, _, _⟩ => l

def right : Node K V → Option (Node K V)
  | ⟨_, _, _, r, _⟩ => r

def level : Node K V → Nat
  | ⟨_, _, _, _, lv⟩ => lv

@[simp] theorem key_mk (k : K) (v : V) (l r : Option (Node K V)) (lv : Nat) :
    key ⟨k, v, l, r, lv⟩ = k := rfl

@[simp] theorem value_mk (k : K) (v : V) (l r : Option (Node K V)) (lv : Nat) :
    value ⟨k, v, l, r, lv⟩ = v := rfl

@[simp] theorem left_mk (k : K) (v : V) (l r : Option (Node K V)) (lv : Nat) :
    left ⟨k, v, l, r, lv⟩ = l := rfl

@[simp] theorem right_mk (k : K) (v : V) (l r : Option (Node K V)) (lv : Nat) :
    right ⟨k, v, l, r, lv⟩ = r := rfl

@[simp] theorem level_mk (k : K) (v : V) (l r : Option (Node K V)) (lv : Nat) :
    level ⟨k, v, l, r, lv⟩ = lv := rfl

theorem eta : ∀ n : Node K V, (⟨n.key, n.value, n.left, n.right, n.level⟩ : Node K V) = n
  | ⟨_, _, _, _, _⟩ => rfl

/-- Case-analysis/induction principle for the nested inductive. -/
theorem ind {motive : Node K V → Prop}
    (h : ∀ (k : K) (v : V) (l r : Option (Node K V)) (lvl : Nat),
      (∀ m, l = some m → motive m) → (∀ m, r = some m → motive m) →
      motive ⟨k, v, l, r, lvl⟩) :
    ∀ n, motive n
  | ⟨k, v, l, r, lvl⟩ =>
    h k v l r lvl
      (match l with
       | none => fun _ hm => by cases hm
       | some m' => fun _ hm => (Option.some.inj hm) ▸ ind h m')
      (match r with
       | none => fun _ hm => by cases hm
       | some m' => fun _ hm => (Option.some.inj hm) ▸ ind h m')

/-- `Node::new`: a fresh node with the given key and value, empty
children and level 1. -/
def new (k : K) (v : V) : Node K V := ⟨k, v, none, none, 1⟩

/-- `Node::max`: the key at the end of the right spine. -/
def max : Node K V → K
  | ⟨k, _, _, none, _⟩ => k
  | ⟨_, _, _, some n, _⟩ => n.max

/-- `Node::min`: the key at the end of the left spine. -/
def min : Node K V → K
  | ⟨k, _, none, _, _⟩ => k
  | ⟨_, _, some n, _, _⟩ => n.min

variable [LinearOrder K]

/-- `Node::is_bst` from `src/aa.rs`. -/
def is_bst : Node K V → Bool
  | ⟨k, _, l, r, _⟩ =>
    let check_left : Bool :=
      match l with
      | none => true
      | some n => n.is_bst && decide (n.max < k)
    if check_left then
      match r with
      | none => true
      | some n => n.is_bst && decide (k < n.min)
    else false

/-- `Node::is_aa` from `src/aa.rs`: BST check plus the level rules,
with the early `return false` branches rendered as `&&` chains. -/
def is_aa : Node K V → Bool
  | ⟨k, v, l, r, lvl⟩ =>
    if !(is_bst ⟨k, v, l, r, lvl⟩) then false
    else
      let okL : Bool :=
        match l with
        | none => true
        | some n => n.is_aa && decide (n.level + 1 = lvl)
      let okR : Bool :=
        match r with
        | none => true
        | some n =>
          n.is_aa &&
          (decide (n.level = lvl) || decide (n.level + 1 = lvl)) &&
          (if n.level = lvl then
            match n.right with
            | none => true
            | some c => decide (¬ c.level = n.level)
          else true)
      okL && okR

end Node

variable {K : Type u} {V : Type v}

/-- `skew` from `src/aa.rs`: if the left child exists and has the same
level as the node, rotate right.  The in-place `take`/`swap` sequence
of the source reassembles the subtree exactly as written here. -/
def skew (node : Node K V) : Node K V :=
  match node with
  | ⟨k, v, some l, r, lvl⟩ =>
    if l.level = lvl then
      ⟨l.key, l.value, l.left, some ⟨k, v, l.right, r, lvl⟩, l.level⟩
    else ⟨k, v, some l, r, lvl⟩
  | n => n

/-- `split` from `src/aa.rs`: if the right child exists and its own
right child has the same level as the node, rotate left and increment
the new root's level. -/
def split (node : Node K V) : Node K V :=
  match node with
  | ⟨k, v, l, some r, lvl⟩ =>
    match r.right with
    | some rr =>
      if rr.level = lvl then
        ⟨r.key, r.value, some ⟨k, v, l, r.left, lvl⟩, r.right, r.level + 1⟩
      else ⟨k, v, l, some r, lvl⟩
    | none => ⟨k, v, l, some r, lvl⟩
  | n => n

/-- `struct Tree<K, V>`: an optional root and a `size` counter. -/
structure Tree (K : Type u) (V : Type v) : Type (max u v) where
  root : Option (Node K V)
  size : Nat

/-- `Tree::new`: empty tree of size 0. -/
def Tree.new : Tree K V := ⟨none, 0⟩

def Tree.is_bst [LinearOrder K] (t : Tree K V) : Bool :=
  match t.root with
  | none => true
  | some r => r.is_bst

def Tree.is_aa [LinearOrder K] (t : Tree K V) : Bool :=
  match t.root with
  | none => true
  | some r => r.is_aa

/-- One descent step of the iterative loop of `Tree::find`, recursing
through the node: go left on `Less`, right on `Greater`, return the
value on `Equal`, `none` at an absent child. -/
def Node.findIn [LinearOrder K] (key : K) : Node K V → Option V
  | ⟨k, v, l, r, _⟩ =>
    if key < k then
      match l with
      | none => none
      | some n => n.findIn key
    else if k < key then
      match r with
      | none => none
      | some n => n.findIn key
    else some v

/-- The loop of `Tree::find` started at an arbitrary link. -/
def linkFind [LinearOrder K] (link : Option (Node K V)) (key : K) : Option V :=
  match link with
  | none => none
  | some n => n.findIn key

def Tree.find [LinearOrder K] (t : Tree K V) (key : K) : Option V :=
  linkFind t.root key

/-- The body of `Tree::insert` below one node, with the recorded-path
rebalancing loop inlined: inserting below a node applies `skew` then
`split` to that node afterwards (the nodes pushed on `path` are
exactly the ancestors of the new node, popped deepest first), while
hitting an equal key overwrites key and value and performs no
rebalancing anywhere (the Rust code returns from inside the loop
without touching `path`).  The first component is the returned
`Option<V>`. -/
def Node.insertIn [LinearOrder K] (key : K) (value : V) : Node K V → Option V × Node K V
  | ⟨k, v, l, r, lvl⟩ =>
    if key < k then
      match (match l with
             | none => (none, Node.new key value)
             | some n => n.insertIn key value) with
      | (none, c) => (none, split (skew ⟨k, v, some c, r, lvl⟩))
      | (some v₀, c) => (some v₀, ⟨k, v, some c, r, lvl⟩)
    else if k < key then
      match (match r with
             | none => (none, Node.new key value)
             | some n => n.insertIn key value) with
      | (none, c) => (none, split (skew ⟨k, v, l, some c, lvl⟩))
      | (some v₀, c) => (some v₀, ⟨k, v, l, some c, lvl⟩)
    else
      (some v, ⟨key, value, l, r, lvl⟩)

/-- `Tree::insert` acting on one link slot. -/
def linkInsert [LinearOrder K] (link : Option (Node K V)) (key : K) (value : V) :
    Option V × Node K V :=
  match link with
  | none => (none, Node.new key value)
  | some n => n.insertIn key value

/-- `Tree::insert`: insert into the root link; `size` is incremented
exactly when the returned previous value is `None`. -/
def Tree.insert [LinearOrder K] (t : Tree K V) (key : K) (value : V) :
    Option V × Tree K V :=
  match linkInsert t.root key value with
  | (none, n) => (none, ⟨some n, t.size + 1⟩)
  | (some v₀, n) => (some v₀, ⟨some n, t.size⟩)

/-- Folding a sequence of `insert` calls from `Tree::new`: the trees
reachable through the public API. -/
def insertList [LinearOrder K] (ops : List (K × V)) : Tree K V :=
  ops.foldl (fun t p => (t.insert p.1 p.2).2) Tree.new

/-! ### Specification-side observation functions -/

/-- Level of a link, counting an absent node as 0 (the conceptual
level of a leaf slot). -/
def olvl : Option (Node K V) → Nat
  | none => 0
  | some n => n.level

/-- The right link of a link. -/
def oright : Option (Node K V) → Option (Node K V)
  | none => none
  | some n => n.right

/-- Number of nodes reachable from a link. -/
def numNodes : Option (Node K V) → Nat
  | none => 0
  | some ⟨_, _, l, r, _⟩ => numNodes l + numNodes r + 1

/-- In-order traversal: the stored (key, value) pairs in key order
when the tree is a BST. -/
def inorder : Option (Node K V) → List (K × V)
  | none => []
  | some ⟨k, v, l, r, _⟩ => inorder l ++ (k, v) :: inorder r

/-- Every key in the subtree satisfies `p`. -/
def OAll (p : K → Prop) : Option (Node K V) → Prop
  | none => True
  | some ⟨k, _, l, r, _⟩ => p k ∧ OAll p l ∧ OAll p r

/-- Binary-search-tree order, phrased recursively with key bounds. -/
def OBst [LinearOrder K] : Option (Node K V) → Prop
  | none => True
  | some ⟨k, _, l, r, _⟩ =>
      OBst l ∧ OBst r ∧ OAll (· < k) l ∧ OAll (k < ·) r

/-- The strong AA-level invariant, counting absent children as level
0: left child exactly one level below, right child at most one level
below, no two consecutive horizontal right links. -/
def OAa : Option (Node K V) → Prop
  | none => True
  | some ⟨_, _, l, r, lvl⟩ =>
      OAa l ∧ OAa r ∧ olvl l + 1 = lvl ∧
      (olvl r = lvl ∨ olvl r + 1 = lvl) ∧
      (olvl r = lvl → olvl (oright r) ≠ lvl)

/-- The tree after replacing, along the binary-search path for `key`,
the matched node's stored key and value by the arguments — the
specification of what an equal-key `insert` does to the structure. -/
def Node.updateKV [LinearOrder K] (key : K) (value : V) : Node K V → Node K V
  | ⟨k, v, l, r, lvl⟩ =>
    if key < k then
      ⟨k, v,
        (match l with
         | none => none
         | some n => some (n.updateKV key value)), r, lvl⟩
    else if k < key then
      ⟨k, v, l,
        (match r with
         | none => none
         | some n => some (n.updateKV key value)), lvl⟩
    else ⟨key, value, l, r, lvl⟩

/-- The value paired with the last occurrence of `k` in the sequence
of insert operations, if any. -/
def lastVal [LinearOrder K] (ops : List (K × V)) (k : K) : Option V :=
  ops.foldl (fun acc p => if p.1 = k then some p.2 else acc) none

/-! ### Equation and unfolding lemmas -/

@[simp] theorem olvl_none : olvl (none : Option (Node K V)) = 0 := rfl

@[simp] theorem olvl_some (n : Node K V) : olvl (some n) = n.level := rfl

@[simp] theorem oright_none : oright (none : Option (Node K V)) = none := rfl

@[simp] theorem oright_some (n : Node K V) : oright (some n) = n.right := rfl

@[simp] theorem numNodes_none : numNodes (none : Option (Node K V)) = 0 := by
  simp [numNodes]

@[simp] theorem numNodes_some (k : K) (v : V) (l r : Option (Node K V)) (lvl : Nat) :
    numNodes (some (⟨k, v, l, r, lvl⟩ : Node K V)) = numNodes l + numNodes r + 1 := by
  simp [numNodes]

@[simp] theorem inorder_none : inorder (none : Option (Node K V)) = [] := by
  simp [inorder]

@[simp] theorem inorder_some (k : K) (v : V) (l r : Option (Node K V)) (lvl : Nat) :
    inorder (some (⟨k, v, l, r, lvl⟩ : Node K V)) = inorder l ++ (k, v) :: inorder r := by
  simp [inorder]

@[simp] theorem oall_none (p : K → Prop) : OAll p (none : Option (Node K V)) := by
  rw [OAll]; trivial

@[simp] theorem oall_some (p : K → Prop) (k : K) (v : V) (l r : Option (Node K V)) (lvl : Nat) :
    OAll p (some (⟨k, v, l, r, lvl⟩ : Node K V)) ↔ p k ∧ OAll p l ∧ OAll p r := by
  rw [OAll]

@[simp] theorem oaa_none : OAa (none : Option (Node K V)) := by
  rw [OAa]; trivial

@[simp] theorem oaa_some (k : K) (v : V) (l r : Option (Node K V)) (lvl : Nat) :
    OAa (some (⟨k, v, l, r, lvl⟩ : Node K V)) ↔
      OAa l ∧ OAa r ∧ olvl l + 1 = lvl ∧
      (olvl r = lvl ∨ olvl r + 1 = lvl) ∧
      (olvl r = lvl → olvl (oright r) ≠ lvl) := by
  rw [OAa]

@[simp] theorem max_rnone (k : K) (v : V) (l : Option (Node K V)) (lvl : Nat) :
    Node.max (⟨k, v, l, none, lvl⟩ : Node K V) = k := rfl

@[simp] theorem max_rsome (k : K) (v : V) (l : Option (Node K V)) (n : Node K V) (lvl : Nat) :
    Node.max (⟨k, v, l, some n, lvl⟩ : Node K V) = n.max := rfl

@[simp] theorem min_lnone (k : K) (v : V) (r : Option (Node K V)) (lvl : Nat) :
    Node.min (⟨k, v, none, r, lvl⟩ : Node K V) = k := rfl

@[simp] theorem min_lsome (k : K) (v : V) (n : Node K V) (r : Option (Node K V)) (lvl : Nat) :
    Node.min (⟨k, v, some n, r, lvl⟩ : Node K V) = n.min := rfl

section OrderedEquations

variable [LinearOrder K]

@[simp] theorem linkFind_none (key : K) :
    linkFind (none : Option (Node K V)) key = none := rfl

theorem linkFind_some (key k : K) (v : V) (l r : Option (Node K V)) (lvl : Nat) :
    linkFind (some ⟨k, v, l, r, lvl⟩) key =
      if key < k then linkFind l key
      else if k < key then linkFind r key
      else some v := by
  cases l <;> cases r <;> rfl

theorem linkInsert_none (key : K) (value : V) :
    linkInsert (none : Option (Node K V)) key value = (none, Node.new key value) := rfl

theorem linkInsert_some (key k : K) (value v : V) (l r : Option (Node K V)) (lvl : Nat) :
    linkInsert (some ⟨k, v, l, r, lvl⟩) key value =
      if key < k then
        match linkInsert l key value with
        | (none, c) => (none, split (skew ⟨k, v, some c, r, lvl⟩))
        | (some v₀, c) => (some v₀, ⟨k, v, some c, r, lvl⟩)
      else if k < key then
        match linkInsert r key value with
        | (none, c) => (none, split (skew ⟨k, v, l, some c, lvl⟩))
        | (some v₀, c) => (some v₀, ⟨k, v, l, some c, lvl⟩)
      else
        (some v, ⟨key, value, l, r, lvl⟩) := by
  cases l <;> cases r <;> simp only [linkInsert, Node.insertIn]

@[simp] theorem obst_none : OBst (none : Option (Node K V)) := by
  rw [OBst]; trivial

@[simp] theorem obst_some (k : K) (v : V) (l r : Option (Node K V)) (lvl : Nat) :
    OBst (some (⟨k, v, l, r, lvl⟩ : Node K V)) ↔
      OBst l ∧ OBst r ∧ OAll (· < k) l ∧ OAll (k < ·) r := by
  rw [OBst]

end OrderedEquations

/-! ### Key-set (`OAll`) lemmas -/

theorem oall_mono {p q : K → Prop} (h : ∀ x, p x → q x) :
    ∀ {link : Option (Node K V)}, OAll p link → OAll q link := by
  intro link
  cases link with
  | none => intro; simp
  | some n =>
    induction n using Node.ind with
    | h k v l r lvl ihl ihr =>
      intro hall
      rw [oall_some] at hall ⊢
      obtain ⟨hk, hl, hr⟩ := hall
      refine ⟨h _ hk, ?_, ?_⟩
      · cases l with
        | none => simp
        | some m => exact ihl m rfl hl
      · cases r with
        | none => simp
        | some m => exact ihr m rfl hr

theorem oall_max {p : K → Prop} :
    ∀ n : Node K V, OAll p (some n) → p n.max := by
  intro n
  induction n using Node.ind with
  | h k v l r lvl ihl ihr =>
    intro hall
    rw [oall_some] at hall
    obtain ⟨hk, _, hr⟩ := hall
    cases r with
    | none => simpa using hk
    | some m => simpa using ihr m rfl hr

theorem oall_min {p : K → Prop} :
    ∀ n : Node K V, OAll p (some n) → p n.min := by
  intro n
  induction n using Node.ind with
  | h k v l r lvl ihl ihr =>
    intro hall
    rw [oall_some] at hall
    obtain ⟨hk, hl, _⟩ := hall
    cases l with
    | none => simpa using hk
    | some m => simpa using ihl m rfl hl

section OrderedAll

variable [LinearOrder K]

theorem oall_le_max :
    ∀ n : Node K V, OBst (some n) → OAll (· ≤ n.max) (some n) := by
  intro n
  induction n using Node.ind with
  | h k v l r lvl ihl ihr =>
    intro hb
    rw [obst_some] at hb
    obtain ⟨hbl, hbr, hal, har⟩ := hb
    cases r with
    | none =>
      rw [max_rnone, oall_some]
      exact ⟨le_refl k, oall_mono (fun x hx => le_of_lt hx) hal, by simp⟩
    | some m =>
      have hklem : k ≤ m.max := le_of_lt (oall_max m har)
      rw [max_rsome, oall_some]
      refine ⟨hklem, ?_, ihr m rfl hbr⟩
      exact oall_mono (fun x hx => le_trans (le_of_lt hx) hklem) hal

theorem oall_min_le :
    ∀ n : Node K V, OBst (some n) → OAll (n.min ≤ ·) (some n) := by
  intro n
  induction n using Node.ind with
  | h k v l r lvl ihl ihr =>
    intro hb
    rw [obst_some] at hb
    obtain ⟨hbl, hbr, hal, har⟩ := hb
    cases l with
    | none =>
      rw [min_lnone, oall_some]
      exact ⟨le_refl k, by simp, oall_mono (fun x hx => le_of_lt hx) har⟩
    | some m =>
      have hmk : m.min ≤ k := le_of_lt (oall_min m hal)
      rw [min_lsome, oall_some]
      refine ⟨hmk, ihl m rfl hbl, ?_⟩
      exact oall_mono (fun x hx => le_trans hmk (le_of_lt hx)) har

end OrderedAll

/-! ### The recursive checkers agree with the specification
predicates -/

section Checkers

variable [LinearOrder K]

theorem is_bst_eq (k : K) (v : V) (l r : Option (Node K V)) (lvl : Nat) :
    Node.is_bst (⟨k, v, l, r, lvl⟩ : Node K V) =
      ((match l with
        | none => true
        | some n => n.is_bst && decide (n.max < k)) &&
       (match r with
        | none => true
        | some n => n.is_bst && decide (k < n.min))) := by
  cases l <;> cases r <;> simp [Node.is_bst]

theorem obst_of_is_bst : ∀ n : Node K V, Node.is_bst n = true → OBst (some n) := by
  intro n
  induction n using Node.ind with
  | h k v l r lvl ihl ihr =>
    intro h
    rw [is_bst_eq, Bool.and_eq_true] at h
    obtain ⟨h1, h2⟩ := h
    rw [obst_some]
    refine ⟨?_, ?_, ?_, ?_⟩
    · cases l with
      | none => exact obst_none
      | some m =>
        rw [Bool.and_eq_true] at h1
        exact ihl m rfl h1.1
    · cases r with
      | none => exact obst_none
      | some m =>
        rw [Bool.and_eq_true] at h2
        exact ihr m rfl h2.1
    · cases l with
      | none => exact oall_none _
      | some m =>
        rw [Bool.and_eq_true, decide_eq_true_eq] at h1
        exact oall_mono (fun x hx => lt_of_le_of_lt hx h1.2)
          (oall_le_max m (ihl m rfl h1.1))
    · cases r with
      | none => exact oall_none _
      | some m =>
        rw [Bool.and_eq_true, decide_eq_true_eq] at h2
        exact oall_mono (fun x hx => lt_of_lt_of_le h2.2 hx)
          (oall_min_le m (ihr m rfl h2.1))

theorem is_bst_of_obst : ∀ n : Node K V, OBst (some n) → Node.is_bst n = true := by
  intro n
  induction n using Node.ind with
  | h k v l r lvl ihl ihr =>
    intro h
    rw [obst_some] at h
    obtain ⟨hbl, hbr, hall, halr⟩ := h
    rw [is_bst_eq, Bool.and_eq_true]
    constructor
    · cases l with
      | none => rfl
      | some m =>
        rw [Bool.and_eq_true, decide_eq_true_eq]
        exact ⟨ihl m rfl hbl, oall_max m hall⟩
    · cases r with
      | none => rfl
      | some m =>
        rw [Bool.and_eq_true, decide_eq_true_eq]
        exact ⟨ihr m rfl hbr, oall_min m halr⟩

theorem is_bst_iff (n : Node K V) : Node.is_bst n = true ↔ OBst (some n) :=
  ⟨obst_of_is_bst n, is_bst_of_obst n⟩

theorem is_aa_eq (k : K) (v : V) (l r : Option (Node K V)) (lvl : Nat) :
    Node.is_aa (⟨k, v, l, r, lvl⟩ : Node K V) =
      (Node.is_bst (⟨k, v, l, r, lvl⟩ : Node K V) &&
       ((match l with
         | none => true
         | some n => n.is_aa && decide (n.level + 1 = lvl)) &&
        (match r with
         | none => true
         | some n =>
           n.is_aa &&
           (decide (n.level = lvl) || decide (n.level + 1 = lvl)) &&
           (if n.level = lvl then
             match n.right with
             | none => true
             | some c => decide (¬ c.level = n.level)
           else true)))) := by
  rw [Node.is_aa.eq_def]
  cases h : Node.is_bst (⟨k, v, l, r, lvl⟩ : Node K V) with
  | false => simp [h]
  | true => simp [h]; rfl

theorem is_aa_of_inv : ∀ n : Node K V, OBst (some n) → OAa (some n) → Node.is_aa n = true := by
  intro n
  induction n using Node.ind with
  | h k v l r lvl ihl ihr =>
    intro hb ha
    rw [oaa_some] at ha
    obtain ⟨hal, har, hlvl, hrl, hrr⟩ := ha
    have hb' := hb
    rw [obst_some] at hb'
    obtain ⟨hbl, hbr, -, -⟩ := hb'
    rw [is_aa_eq, Bool.and_eq_true, Bool.and_eq_true]
    refine ⟨(is_bst_iff _).2 hb, ?_, ?_⟩
    · cases l with
      | none => simp
      | some m =>
        simp only [Bool.and_eq_true, decide_eq_true_eq]
        exact ⟨ihl m rfl hbl hal, by simpa using hlvl⟩
    · cases r with
      | none => simp
      | some m =>
        simp only [Bool.and_eq_true, decide_eq_true_eq, Bool.or_eq_true]
        refine ⟨⟨ihr m rfl hbr har, by simpa using hrl⟩, ?_⟩
        by_cases hml : m.level = lvl
        · rw [if_pos hml]
          have hne := hrr (by simpa using hml)
          cases hmr : m.right with
          | none => simp
          | some c =>
            simp only [oright_some, hmr, olvl_some] at hne
            simp only [decide_eq_true_eq]
            exact fun hc => hne (hc.trans hml)
        · rw [if_neg hml]

end Checkers

/-! ### Rotation lemmas -/

section Rotations

variable [LinearOrder K]

@[simp] theorem skew_lnone (k : K) (v : V) (r : Option (Node K V)) (lvl : Nat) :
    skew (⟨k, v, none, r, lvl⟩ : Node K V) = ⟨k, v, none, r, lvl⟩ := rfl

theorem skew_lsome (k : K) (v : V) (ml : Node K V) (r : Option (Node K V)) (lvl : Nat) :
    skew (⟨k, v, some ml, r, lvl⟩ : Node K V) =
      if ml.level = lvl then
        ⟨ml.key, ml.value, ml.left, some ⟨k, v, ml.right, r, lvl⟩, ml.level⟩
      else ⟨k, v, some ml, r, lvl⟩ := rfl

@[simp] theorem split_rnone (k : K) (v : V) (l : Option (Node K V)) (lvl : Nat) :
    split (⟨k, v, l, none, lvl⟩ : Node K V) = ⟨k, v, l, none, lvl⟩ := rfl

theorem split_rsome (k : K) (v : V) (l : Option (Node K V)) (mr : Node K V) (lvl : Nat) :
    split (⟨k, v, l, some mr, lvl⟩ : Node K V) =
      match mr.right with
      | some rr =>
        if rr.level = lvl then
          ⟨mr.key, mr.value, some ⟨k, v, l, mr.left, lvl⟩, mr.right, mr.level + 1⟩
        else ⟨k, v, l, some mr, lvl⟩
      | none => ⟨k, v, l, some mr, lvl⟩ := rfl

theorem inorder_skew (n : Node K V) :
    inorder (some (skew n)) = inorder (some n) := by
  obtain ⟨k, v, l, r, lvl⟩ := n
  cases l with
  | none => rfl
  | some ml =>
    obtain ⟨mk, mv, mll, mlr, mlvl⟩ := ml
    rw [skew_lsome]
    by_cases h : Node.level (⟨mk, mv, mll, mlr, mlvl⟩ : Node K V) = lvl
    · rw [if_pos h]
      simp [List.append_assoc]
    · rw [if_neg h]

theorem inorder_split (n : Node K V) :
    inorder (some (split n)) = inorder (some n) := by
  obtain ⟨k, v, l, r, lvl⟩ := n
  cases r with
  | none => rfl
  | some mr =>
    obtain ⟨mk, mv, mrl, mrr, mlvl⟩ := mr
    rw [split_rsome]
    cases mrr with
    | none => rfl
    | some rr =>
      simp only [Node.right_mk]
      by_cases h : rr.level = lvl
      · rw [if_pos h]
        simp [List.append_assoc]
      · rw [if_neg h]

theorem numNodes_skew (n : Node K V) :
    numNodes (some (skew n)) = numNodes (some n) := by
  obtain ⟨k, v, l, r, lvl⟩ := n
  cases l with
  | none => rfl
  | some ml =>
    obtain ⟨mk, mv, mll, mlr, mlvl⟩ := ml
    rw [skew_lsome]
    by_cases h : Node.level (⟨mk, mv, mll, mlr, mlvl⟩ : Node K V) = lvl
    · rw [if_pos h]
      simp
      omega
    · rw [if_neg h]

theorem numNodes_split (n : Node K V) :
    numNodes (some (split n)) = numNodes (some n) := by
  obtain ⟨k, v, l, r, lvl⟩ := n
  cases r with
  | none => rfl
  | some mr =>
    obtain ⟨mk, mv, mrl, mrr, mlvl⟩ := mr
    rw [split_rsome]
    cases mrr with
    | none => rfl
    | some rr =>
      simp only [Node.right_mk]
      by_cases h : rr.level = lvl
      · rw [if_pos h]
        simp
        omega
      · rw [if_neg h]

theorem oall_skew {p : K → Prop} (n : Node K V) (h : OAll p (some n)) :
    OAll p (some (skew n)) := by
  obtain ⟨k, v, l, r, lvl⟩ := n
  cases l with
  | none => exact h
  | some ml =>
    obtain ⟨mk, mv, mll, mlr, mlvl⟩ := ml
    rw [skew_lsome]
    by_cases hlv : Node.level (⟨mk, mv, mll, mlr, mlvl⟩ : Node K V) = lvl
    · rw [if_pos hlv]
      rw [oall_some] at h ⊢
      obtain ⟨hk, hl, hr⟩ := h
      rw [oall_some] at hl
      obtain ⟨hmk, hmll, hmlr⟩ := hl
      simp only [Node.key_mk, Node.value_mk, Node.left_mk, Node.right_mk]
      exact ⟨hmk, hmll, by rw [oall_some]; exact ⟨hk, hmlr, hr⟩⟩
    · rw [if_neg hlv]
      exact h

theorem oall_split {p : K → Prop} (n : Node K V) (h : OAll p (some n)) :
    OAll p (some (split n)) := by
  obtain ⟨k, v, l, r, lvl⟩ := n
  cases r with
  | none => exact h
  | some mr =>
    obtain ⟨mk, mv, mrl, mrr, mlvl⟩ := mr
    rw [split_rsome]
    cases mrr with
    | none => exact h
    | some rr =>
      simp only [Node.right_mk]
      by_cases hlv : rr.level = lvl
      · rw [if_pos hlv]
        rw [oall_some] at h
        obtain ⟨hk, hl, hr⟩ := h
        rw [oall_some] at hr
        obtain ⟨hmk, hmrl, hmrr⟩ := hr
        rw [oall_some]
        simp only [Node.key_mk, Node.value_mk, Node.left_mk, Node.right_mk]
        exact ⟨hmk, by rw [oall_some]; exact ⟨hk, hl, hmrl⟩, hmrr⟩
      · rw [if_neg hlv]
        exact h

theorem obst_skew (n : Node K V) (h : OBst (some n)) :
    OBst (some (skew n)) := by
  obtain ⟨k, v, l, r, lvl⟩ := n
  cases l with
  | none => exact h
  | some ml =>
    obtain ⟨mk, mv, mll, mlr, mlvl⟩ := ml
    rw [skew_lsome]
    by_cases hlv : Node.level (⟨mk, mv, mll, mlr, mlvl⟩ : Node K V) = lvl
    · rw [if_pos hlv]
      rw [obst_some] at h
      obtain ⟨hbl, hbr, hall, halr⟩ := h
      rw [obst_some] at hbl
      obtain ⟨hbll, hblr, halll, hallr⟩ := hbl
      rw [oall_some] at hall
      obtain ⟨hmkk, hmlll, hmllr⟩ := hall
      simp only [Node.key_mk, Node.value_mk, Node.left_mk, Node.right_mk]
      rw [obst_some]
      refine ⟨hbll, ?_, halll, ?_⟩
      · rw [obst_some]
        exact ⟨hblr, hbr, hmllr, halr⟩
      · rw [oall_some]
        exact ⟨hmkk, hallr,
          oall_mono (fun x hx => lt_trans hmkk hx) halr⟩
    · rw [if_neg hlv]
      exact h

theorem obst_split (n : Node K V) (h : OBst (some n)) :
    OBst (some (split n)) := by
  obtain ⟨k, v, l, r, lvl⟩ := n
  cases r with
  | none => exact h
  | some mr =>
    obtain ⟨mk, mv, mrl, mrr, mlvl⟩ := mr
    rw [split_rsome]
    cases mrr with
    | none => exact h
    | some rr =>
      simp only [Node.right_mk]
      by_cases hlv : rr.level = lvl
      · rw [if_pos hlv]
        rw [obst_some] at h
        obtain ⟨hbl, hbr, hall, halr⟩ := h
        rw [obst_some] at hbr
        obtain ⟨hbrl, hbrr, halrl, halrr⟩ := hbr
        rw [oall_some] at halr
        obtain ⟨hkmk, hmrl2, hmrr2⟩ := halr
        simp only [Node.key_mk, Node.value_mk, Node.left_mk, Node.right_mk]
        rw [obst_some]
        refine ⟨?_, hbrr, ?_, halrr⟩
        · rw [obst_some]
          exact ⟨hbl, hbrl, hall, hmrl2⟩
        · rw [oall_some]
          exact ⟨hkmk,
            oall_mono (fun x hx => lt_trans hx hkmk) hall, halrl⟩
      · rw [if_neg hlv]
        exact h

end Rotations


section FindRotations

variable [LinearOrder K]

theorem find_skew (n : Node K V) (h : OBst (some n)) (key : K) :
    linkFind (some (skew n)) key = linkFind (some n) key := by
  obtain ⟨k, v, l, r, lvl⟩ := n
  cases l with
  | none => rfl
  | some ml =>
    obtain ⟨mk, mv, mll, mlr, mlvl⟩ := ml
    rw [skew_lsome]
    by_cases hlv : Node.level (⟨mk, mv, mll, mlr, mlvl⟩ : Node K V) = lvl
    · rw [if_pos hlv]
      rw [obst_some] at h
      obtain ⟨-, -, hall, -⟩ := h
      rw [oall_some] at hall
      have hmkk : mk < k := hall.1
      simp only [Node.key_mk, Node.value_mk, Node.left_mk, Node.right_mk]
      rcases lt_trichotomy key mk with h1 | h1 | h1
      · have h2 : key < k := h1.trans hmkk
        simp [linkFind_some, h1, h2]
      · simp [linkFind_some, h1, hmkk]
      · have h3 : ¬ key < mk := h1.asymm
        rcases lt_trichotomy key k with h2 | h2 | h2
        · simp [linkFind_some, h1, h2, h3]
        · simp [linkFind_some, h1, h2, h3, hmkk, hmkk.asymm]
        · have h4 : ¬ key < k := h2.asymm
          simp [linkFind_some, h1, h2, h3, h4]
    · rw [if_neg hlv]

theorem find_split (n : Node K V) (h : OBst (some n)) (key : K) :
    linkFind (some (split n)) key = linkFind (some n) key := by
  obtain ⟨k, v, l, r, lvl⟩ := n
  cases r with
  | none => rfl
  | some mr =>
    obtain ⟨mk, mv, mrl, mrr, mlvl⟩ := mr
    rw [split_rsome]
    cases mrr with
    | none => rfl
    | some rr =>
      simp only [Node.right_mk]
      by_cases hlv : rr.level = lvl
      · rw [if_pos hlv]
        rw [obst_some] at h
        obtain ⟨-, -, -, halr⟩ := h
        rw [oall_some] at halr
        have hkmk : k < mk := halr.1
        simp only [Node.key_mk, Node.value_mk, Node.left_mk, Node.right_mk]
        rcases lt_trichotomy key k with h1 | h1 | h1
        · have h2 : key < mk := h1.trans hkmk
          simp [linkFind_some, h1, h2]
        · simp [linkFind_some, h1, hkmk]
        · have h3 : ¬ key < k := h1.asymm
          rcases lt_trichotomy key mk with h2 | h2 | h2
          · simp [linkFind_some, h1, h2, h3]
          · simp [linkFind_some, h1, h2, h3, hkmk, hkmk.asymm]
          · have h4 : ¬ key < mk := h2.asymm
            simp [linkFind_some, h1, h2, h3, h4]
      · rw [if_neg hlv]

end FindRotations

/-! ### Level bookkeeping helpers -/

section LevelHelpers

variable [LinearOrder K]

theorem oaa_right_le (link : Option (Node K V)) (h : OAa link) :
    olvl (oright link) ≤ olvl link := by
  cases link with
  | none => simp
  | some n =>
    obtain ⟨k, v, l, r, lvl⟩ := n
    rw [oaa_some] at h
    obtain ⟨-, -, -, hrv, -⟩ := h
    simp only [oright_some, Node.right_mk, olvl_some, Node.level_mk]
    omega

theorem skew_id_of (k : K) (v : V) (l r : Option (Node K V)) (lvl : Nat)
    (h : olvl l ≠ lvl) : skew (⟨k, v, l, r, lvl⟩ : Node K V) = ⟨k, v, l, r, lvl⟩ := by
  cases l with
  | none => rfl
  | some ml => rw [skew_lsome, if_neg (by simpa using h)]

theorem skew_fire (k : K) (v : V) (c : Node K V) (r : Option (Node K V)) (lvl : Nat)
    (h : c.level = lvl) :
    skew (⟨k, v, some c, r, lvl⟩ : Node K V) =
      ⟨c.key, c.value, c.left, some ⟨k, v, c.right, r, lvl⟩, c.level⟩ := by
  rw [skew_lsome, if_pos h]

theorem split_id_of (k : K) (v : V) (l r : Option (Node K V)) (lvl : Nat)
    (h : olvl (oright r) ≠ lvl) :
    split (⟨k, v, l, r, lvl⟩ : Node K V) = ⟨k, v, l, r, lvl⟩ := by
  cases r with
  | none => rfl
  | some mr =>
    rw [split_rsome]
    simp only [oright_some] at h
    cases hmr : mr.right with
    | none => rfl
    | some rr =>
      rw [hmr] at h
      simp only [olvl_some] at h
      simp [h]

theorem split_fire (k : K) (v : V) (l : Option (Node K V)) (mr : Node K V) (lvl : Nat)
    (rb : Node K V) (hmr : mr.right = some rb) (h : rb.level = lvl) :
    split (⟨k, v, l, some mr, lvl⟩ : Node K V) =
      ⟨mr.key, mr.value, some ⟨k, v, l, mr.left, lvl⟩, mr.right, mr.level + 1⟩ := by
  rw [split_rsome, hmr]
  simp [h]

theorem olvl_eq_some (x : Option (Node K V)) (m : Nat) (h : olvl x = m) (hm : m ≠ 0) :
    ∃ n, x = some n ∧ n.level = m := by
  cases x with
  | none => simp at h; omega
  | some n => exact ⟨n, rfl, by simpa using h⟩

/-- Postcondition of one `insert` step on a link, strong enough to be
propagated through the bottom-up `skew`/`split` pass: the result
satisfies the strong AA invariant; an overwriting insert keeps the
root level and the right child's level; a fresh insert keeps the root
level or raises it by one, and in the latter case both children of
the new root sit exactly one level below it and the original tree had
a horizontal right link at its root. -/
def InsPost (key : K) (value : V) (link : Option (Node K V)) : Prop :=
  OAa (some (linkInsert link key value).2) ∧
  ((linkInsert link key value).1 ≠ none →
    (linkInsert link key value).2.level = olvl link ∧
    olvl (linkInsert link key value).2.right = olvl (oright link)) ∧
  ((linkInsert link key value).1 = none →
    ((linkInsert link key value).2.level = olvl link ∨
     ((linkInsert link key value).2.level = olvl link + 1 ∧
      olvl (linkInsert link key value).2.left + 1 = (linkInsert link key value).2.level ∧
      olvl (linkInsert link key value).2.right + 1 = (linkInsert link key value).2.level ∧
      olvl (oright link) = olvl link)))

theorem insPost_nil (key : K) (value : V) :
    InsPost key value (none : Option (Node K V)) := by
  unfold InsPost
  rw [linkInsert_none]
  refine ⟨?_, ?_, ?_⟩
  · simp [Node.new]
  · intro h; exact absurd rfl h
  · intro _
    right
    simp [Node.new]

end LevelHelpers

section InsertAA

variable [LinearOrder K]

theorem oaa_parts (n : Node K V) (h : OAa (some n)) :
    OAa n.left ∧ OAa n.right ∧ olvl n.left + 1 = n.level ∧
    (olvl n.right = n.level ∨ olvl n.right + 1 = n.level) ∧
    (olvl n.right = n.level → olvl (oright n.right) ≠ n.level) := by
  obtain ⟨k, v, l, r, lvl⟩ := n
  rw [oaa_some] at h
  simpa using h

/-- The heart of claim C1: one insertion step preserves the strong AA
invariant, with the level bookkeeping needed for the bottom-up
`skew`/`split` pass. -/
theorem insPost_of_aa (key : K) (value : V) :
    ∀ link : Option (Node K V), OAa link → InsPost key value link := by
  intro link
  cases link with
  | none => exact fun _ => insPost_nil key value
  | some n =>
    induction n using Node.ind with
    | h k v l r lvl ihl ihr =>
      intro ha
      rw [oaa_some] at ha
      obtain ⟨hal, har, hlv, hrv, hrr⟩ := ha
      rcases lt_trichotomy key k with h1 | h1 | h1
      · -- descend left
        have hpost : InsPost key value l := by
          cases l with
          | none => exact insPost_nil key value
          | some m => exact ihl m rfl hal
        unfold InsPost at hpost
        rcases hq : linkInsert l key value with ⟨o, cc⟩
        rw [hq] at hpost
        obtain ⟨hcA, hcB, hcC⟩ := hpost
        replace hcA : OAa (some cc) := hcA
        cases o with
        | some v₀ =>
          have hcB' : cc.level = olvl l ∧ olvl cc.right = olvl (oright l) :=
            hcB (by simp)
          obtain ⟨hclev, hcright⟩ := hcB'
          have heq : linkInsert (some ⟨k, v, l, r, lvl⟩) key value
              = (some v₀, ⟨k, v, some cc, r, lvl⟩) := by
            rw [linkInsert_some, if_pos h1, hq]
          unfold InsPost
          rw [heq]
          dsimp only
          refine ⟨?_, fun _ => ⟨by simp, by simp⟩, fun hcon => by simp at hcon⟩
          rw [oaa_some]
          exact ⟨hcA, har, by simp only [olvl_some]; omega, hrv, hrr⟩
        | none =>
          replace hcC : cc.level = olvl l ∨
              (cc.level = olvl l + 1 ∧ olvl cc.left + 1 = cc.level ∧
               olvl cc.right + 1 = cc.level ∧ olvl (oright l) = olvl l) := hcC rfl
          rcases hcC with hA | ⟨hB1, hB2, hB3, hB4⟩
          · -- child level unchanged: both rotations are no-ops
            have hskew : skew (⟨k, v, some cc, r, lvl⟩ : Node K V)
                = ⟨k, v, some cc, r, lvl⟩ :=
              skew_id_of k v (some cc) r lvl (by simp only [olvl_some]; omega)
            have hsplit : split (⟨k, v, some cc, r, lvl⟩ : Node K V)
                = ⟨k, v, some cc, r, lvl⟩ := by
              apply split_id_of
              have hle := oaa_right_le r har
              rcases hrv with h | h
              · exact hrr h
              · omega
            have heq : linkInsert (some ⟨k, v, l, r, lvl⟩) key value
                = (none, ⟨k, v, some cc, r, lvl⟩) := by
              rw [linkInsert_some, if_pos h1, hq]
              dsimp only
              rw [hskew, hsplit]
            unfold InsPost
            rw [heq]
            dsimp only
            refine ⟨?_, fun hcon => absurd rfl hcon, fun _ => Or.inl (by simp)⟩
            rw [oaa_some]
            exact ⟨hcA, har, by simp only [olvl_some]; omega, hrv, hrr⟩
          · -- child level increased: skew fires
            have hB1' : cc.level = lvl := by omega
            have heqskew := skew_fire k v cc r lvl hB1'
            by_cases hsp : olvl r = lvl
            · -- double horizontal right link: split fires
              obtain ⟨rb, hrb, hrbl⟩ := olvl_eq_some r lvl hsp (by omega)
              have hsplit := split_fire cc.key cc.value cc.left
                (⟨k, v, cc.right, r, lvl⟩ : Node K V) cc.level rb
                (by simpa using hrb) (by omega)
              simp only [Node.key_mk, Node.value_mk, Node.left_mk, Node.right_mk,
                Node.level_mk] at hsplit
              rw [Node.eta] at hsplit
              have heq : linkInsert (some ⟨k, v, l, r, lvl⟩) key value
                  = (none, ⟨k, v, some cc, r, lvl + 1⟩) := by
                rw [linkInsert_some, if_pos h1, hq]
                dsimp only
                rw [heqskew, hsplit]
              unfold InsPost
              rw [heq]
              dsimp only
              refine ⟨?_, fun hcon => absurd rfl hcon,
                fun _ => Or.inr ⟨by simp, ?_, ?_, ?_⟩⟩
              · rw [oaa_some]
                refine ⟨hcA, har, by simp only [olvl_some]; omega, by omega, ?_⟩
                intro hcontra
                omega
              · simp only [Node.left_mk, olvl_some, Node.level_mk]
                omega
              · simp only [Node.right_mk, Node.level_mk]
                omega
              · simp only [oright_some, Node.right_mk, olvl_some, Node.level_mk]
                omega
            · -- split does not fire
              have hsplit : split (⟨cc.key, cc.value, cc.left,
                  some (⟨k, v, cc.right, r, lvl⟩ : Node K V), cc.level⟩ : Node K V)
                  = ⟨cc.key, cc.value, cc.left, some ⟨k, v, cc.right, r, lvl⟩, cc.level⟩ := by
                apply split_id_of
                simp only [oright_some, Node.right_mk]
                omega
              have heq : linkInsert (some ⟨k, v, l, r, lvl⟩) key value
                  = (none, ⟨cc.key, cc.value, cc.left,
                      some ⟨k, v, cc.right, r, lvl⟩, cc.level⟩) := by
                rw [linkInsert_some, if_pos h1, hq]
                dsimp only
                rw [heqskew, hsplit]
              unfold InsPost
              rw [heq]
              dsimp only
              obtain ⟨hccl, hccr, hccL, hccR, hccRR⟩ := oaa_parts cc hcA
              refine ⟨?_, fun hcon => absurd rfl hcon,
                fun _ => Or.inl (by simp only [Node.level_mk, olvl_some]; omega)⟩
              rw [oaa_some]
              refine ⟨hccl, ?_, by omega, ?_, ?_⟩
              · rw [oaa_some]
                exact ⟨hccr, har, by omega, hrv, hrr⟩
              · simp only [olvl_some, Node.level_mk]
                omega
              · intro _
                simp only [oright_some, Node.right_mk, olvl_some]
                omega
      · -- equal keys: overwrite in place
        have hn1 : ¬ key < k := by rw [h1]; exact lt_irrefl k
        have hn2 : ¬ k < key := by rw [h1]; exact lt_irrefl k
        have heq : linkInsert (some ⟨k, v, l, r, lvl⟩) key value
            = (some v, ⟨key, value, l, r, lvl⟩) := by
          rw [linkInsert_some, if_neg hn1, if_neg hn2]
        unfold InsPost
        rw [heq]
        dsimp only
        refine ⟨?_, fun _ => ⟨by simp, by simp⟩, fun hcon => by simp at hcon⟩
        rw [oaa_some]
        exact ⟨hal, har, hlv, hrv, hrr⟩
      · -- descend right
        have hn1 : ¬ key < k := h1.asymm
        have hpost : InsPost key value r := by
          cases r with
          | none => exact insPost_nil key value
          | some m => exact ihr m rfl har
        unfold InsPost at hpost
        rcases hq : linkInsert r key value with ⟨o, cc⟩
        rw [hq] at hpost
        obtain ⟨hcA, hcB, hcC⟩ := hpost
        replace hcA : OAa (some cc) := hcA
        cases o with
        | some v₀ =>
          have hcB' : cc.level = olvl r ∧ olvl cc.right = olvl (oright r) :=
            hcB (by simp)
          obtain ⟨hclev, hcright⟩ := hcB'
          have heq : linkInsert (some ⟨k, v, l, r, lvl⟩) key value
              = (some v₀, ⟨k, v, l, some cc, lvl⟩) := by
            rw [linkInsert_some, if_neg hn1, if_pos h1, hq]
          unfold InsPost
          rw [heq]
          dsimp only
          refine ⟨?_, fun _ => ⟨by simp,
            by simp only [Node.right_mk, olvl_some, oright_some]; omega⟩,
            fun hcon => by simp at hcon⟩
          rw [oaa_some]
          refine ⟨hal, hcA, hlv, by simp only [olvl_some]; omega, ?_⟩
          intro hcl
          simp only [olvl_some] at hcl
          have h5 := hrr (by omega)
          simp only [oright_some]
          omega
        | none =>
          replace hcC : cc.level = olvl r ∨
              (cc.level = olvl r + 1 ∧ olvl cc.left + 1 = cc.level ∧
               olvl cc.right + 1 = cc.level ∧ olvl (oright r) = olvl r) := hcC rfl
          have hskew : skew (⟨k, v, l, some cc, lvl⟩ : Node K V)
              = ⟨k, v, l, some cc, lvl⟩ :=
            skew_id_of k v l (some cc) lvl (by omega)
          rcases hcC with hA | ⟨hB1, hB2, hB3, hB4⟩
          · by_cases hsp : olvl cc.right = lvl
            · -- split fires
              have hle : olvl cc.right ≤ cc.level := by
                simpa using oaa_right_le (some cc) hcA
              have hrle : olvl r ≤ lvl := by omega
              have hcclvl : cc.level = lvl := by omega
              have hrlvl : olvl r = lvl := by omega
              obtain ⟨rb, hrb, hrbl⟩ := olvl_eq_some cc.right lvl hsp (by omega)
              have hsplit := split_fire k v l cc lvl rb hrb (by omega)
              have heq : linkInsert (some ⟨k, v, l, r, lvl⟩) key value
                  = (none, ⟨cc.key, cc.value, some ⟨k, v, l, cc.left, lvl⟩,
                      cc.right, cc.level + 1⟩) := by
                rw [linkInsert_some, if_neg hn1, if_pos h1, hq]
                dsimp only
                rw [hskew, hsplit]
              unfold InsPost
              rw [heq]
              dsimp only
              obtain ⟨hccl, hccr, hccL, hccR, hccRR⟩ := oaa_parts cc hcA
              refine ⟨?_, fun hcon => absurd rfl hcon,
                fun _ => Or.inr ⟨?_, ?_, ?_, ?_⟩⟩
              · rw [oaa_some]
                refine ⟨?_, hccr, by simp only [olvl_some, Node.level_mk]; omega,
                  by omega, ?_⟩
                · rw [oaa_some]
                  refine ⟨hal, hccl, hlv, by omega, ?_⟩
                  intro h
                  omega
                · intro h
                  omega
              · simp only [Node.level_mk, olvl_some]
                omega
              · simp only [Node.left_mk, olvl_some, Node.level_mk]
                omega
              · simp only [Node.right_mk, Node.level_mk]
                omega
              · simp only [oright_some, Node.right_mk, olvl_some, Node.level_mk]
                omega
            · -- split does not fire
              have hsplit : split (⟨k, v, l, some cc, lvl⟩ : Node K V)
                  = ⟨k, v, l, some cc, lvl⟩ := by
                apply split_id_of
                simpa using hsp
              have heq : linkInsert (some ⟨k, v, l, r, lvl⟩) key value
                  = (none, ⟨k, v, l, some cc, lvl⟩) := by
                rw [linkInsert_some, if_neg hn1, if_pos h1, hq]
                dsimp only
                rw [hskew, hsplit]
              unfold InsPost
              rw [heq]
              dsimp only
              refine ⟨?_, fun hcon => absurd rfl hcon, fun _ => Or.inl (by simp)⟩
              rw [oaa_some]
              refine ⟨hal, hcA, hlv, by simp only [olvl_some]; omega, ?_⟩
              intro _
              simp only [oright_some]
              omega
          · -- child level increased below a right child
            rcases hrv with hre | hre
            · exact absurd (by omega : olvl (oright r) = lvl) (hrr hre)
            · have hsplit : split (⟨k, v, l, some cc, lvl⟩ : Node K V)
                  = ⟨k, v, l, some cc, lvl⟩ := by
                apply split_id_of
                simp only [oright_some, olvl_some]
                omega
              have heq : linkInsert (some ⟨k, v, l, r, lvl⟩) key value
                  = (none, ⟨k, v, l, some cc, lvl⟩) := by
                rw [linkInsert_some, if_neg hn1, if_pos h1, hq]
                dsimp only
                rw [hskew, hsplit]
              unfold InsPost
              rw [heq]
              dsimp only
              refine ⟨?_, fun hcon => absurd rfl hcon, fun _ => Or.inl (by simp)⟩
              rw [oaa_some]
              refine ⟨hal, hcA, hlv, by simp only [olvl_some]; omega, ?_⟩
              intro _
              simp only [oright_some]
              omega

end InsertAA

/-! ### `insert`: returned value, key set, BST order -/

section InsertBst

variable [LinearOrder K]

/-- `insert` and `find` descend along the same comparisons: the value
returned by `insert` is exactly what `find` would have returned. -/
theorem linkInsert_fst (key : K) (value : V) :
    ∀ link : Option (Node K V),
      (linkInsert link key value).1 = linkFind link key := by
  intro link
  cases link with
  | none => rfl
  | some n =>
    induction n using Node.ind with
    | h k v l r lvl ihl ihr =>
      have hstep : (linkInsert l key value).1 = linkFind l key := by
        cases l with
        | none => rfl
        | some m => exact ihl m rfl
      have hstepr : (linkInsert r key value).1 = linkFind r key := by
        cases r with
        | none => rfl
        | some m => exact ihr m rfl
      rw [linkFind_some]
      rcases lt_trichotomy key k with h1 | h1 | h1
      · rcases hq : linkInsert l key value with ⟨o, cc⟩
        rw [hq] at hstep
        replace hstep : o = linkFind l key := hstep
        cases o with
        | none =>
          have heq : linkInsert (some ⟨k, v, l, r, lvl⟩) key value
              = (none, split (skew ⟨k, v, some cc, r, lvl⟩)) := by
            rw [linkInsert_some, if_pos h1, hq]
          rw [heq, if_pos h1]
          exact hstep
        | some v₀ =>
          have heq : linkInsert (some ⟨k, v, l, r, lvl⟩) key value
              = (some v₀, ⟨k, v, some cc, r, lvl⟩) := by
            rw [linkInsert_some, if_pos h1, hq]
          rw [heq, if_pos h1]
          exact hstep
      · have hn1 : ¬ key < k := by rw [h1]; exact lt_irrefl k
        have hn2 : ¬ k < key := by rw [h1]; exact lt_irrefl k
        have heq : linkInsert (some ⟨k, v, l, r, lvl⟩) key value
            = (some v, ⟨key, value, l, r, lvl⟩) := by
          rw [linkInsert_some, if_neg hn1, if_neg hn2]
        rw [heq, if_neg hn1, if_neg hn2]
      · have hn1 : ¬ key < k := h1.asymm
        rcases hq : linkInsert r key value with ⟨o, cc⟩
        rw [hq] at hstepr
        replace hstepr : o = linkFind r key := hstepr
        cases o with
        | none =>
          have heq : linkInsert (some ⟨k, v, l, r, lvl⟩) key value
              = (none, split (skew ⟨k, v, l, some cc, lvl⟩)) := by
            rw [linkInsert_some, if_neg hn1, if_pos h1, hq]
          rw [heq, if_neg hn1, if_pos h1]
          exact hstepr
        | some v₀ =>
          have heq : linkInsert (some ⟨k, v, l, r, lvl⟩) key value
              = (some v₀, ⟨k, v, l, some cc, lvl⟩) := by
            rw [linkInsert_some, if_neg hn1, if_pos h1, hq]
          rw [heq, if_neg hn1, if_pos h1]
          exact hstepr

theorem oall_insert {p : K → Prop} (key : K) (value : V) :
    ∀ link : Option (Node K V), OAll p link → p key →
      OAll p (some (linkInsert link key value).2) := by
  intro link
  cases link with
  | none =>
    intro _ hp
    rw [linkInsert_none]
    dsimp only
    rw [Node.new, oall_some]
    exact ⟨hp, oall_none p, oall_none p⟩
  | some n =>
    induction n using Node.ind with
    | h k v l r lvl ihl ihr =>
      intro hall hp
      rw [oall_some] at hall
      obtain ⟨hk, hl, hr⟩ := hall
      rcases lt_trichotomy key k with h1 | h1 | h1
      · have hstep : OAll p (some (linkInsert l key value).2) := by
          cases l with
          | none =>
            rw [linkInsert_none]
            dsimp only
            rw [Node.new, oall_some]
            exact ⟨hp, oall_none p, oall_none p⟩
          | some m => exact ihl m rfl hl hp
        rcases hq : linkInsert l key value with ⟨o, cc⟩
        rw [hq] at hstep
        replace hstep : OAll p (some cc) := hstep
        cases o with
        | none =>
          have heq : linkInsert (some ⟨k, v, l, r, lvl⟩) key value
              = (none, split (skew ⟨k, v, some cc, r, lvl⟩)) := by
            rw [linkInsert_some, if_pos h1, hq]
          rw [heq]
          dsimp only
          apply oall_split
          apply oall_skew
          rw [oall_some]
          exact ⟨hk, hstep, hr⟩
        | some v₀ =>
          have heq : linkInsert (some ⟨k, v, l, r, lvl⟩) key value
              = (some v₀, ⟨k, v, some cc, r, lvl⟩) := by
            rw [linkInsert_some, if_pos h1, hq]
          rw [heq]
          dsimp only
          rw [oall_some]
          exact ⟨hk, hstep, hr⟩
      · have hn1 : ¬ key < k := by rw [h1]; exact lt_irrefl k
        have hn2 : ¬ k < key := by rw [h1]; exact lt_irrefl k
        have heq : linkInsert (some ⟨k, v, l, r, lvl⟩) key value
            = (some v, ⟨key, value, l, r, lvl⟩) := by
          rw [linkInsert_some, if_neg hn1, if_neg hn2]
        rw [heq]
        dsimp only
        rw [oall_some]
        exact ⟨hp, hl, hr⟩
      · have hn1 : ¬ key < k := h1.asymm
        have hstep : OAll p (some (linkInsert r key value).2) := by
          cases r with
          | none =>
            rw [linkInsert_none]
            dsimp only
            rw [Node.new, oall_some]
            exact ⟨hp, oall_none p, oall_none p⟩
          | some m => exact ihr m rfl hr hp
        rcases hq : linkInsert r key value with ⟨o, cc⟩
        rw [hq] at hstep
        replace hstep : OAll p (some cc) := hstep
        cases o with
        | none =>
          have heq : linkInsert (some ⟨k, v, l, r, lvl⟩) key value
              = (none, split (skew ⟨k, v, l, some cc, lvl⟩)) := by
            rw [linkInsert_some, if_neg hn1, if_pos h1, hq]
          rw [heq]
          dsimp only
          apply oall_split
          apply oall_skew
          rw [oall_some]
          exact ⟨hk, hl, hstep⟩
        | some v₀ =>
          have heq : linkInsert (some ⟨k, v, l, r, lvl⟩) key value
              = (some v₀, ⟨k, v, l, some cc, lvl⟩) := by
            rw [linkInsert_some, if_neg hn1, if_pos h1, hq]
          rw [heq]
          dsimp only
          rw [oall_some]
          exact ⟨hk, hl, hstep⟩

theorem obst_insert (key : K) (value : V) :
    ∀ link : Option (Node K V), OBst link →
      OBst (some (linkInsert link key value).2) := by
  intro link
  cases link with
  | none =>
    intro _
    rw [linkInsert_none]
    dsimp only
    rw [Node.new, obst_some]
    exact ⟨obst_none, obst_none, oall_none _, oall_none _⟩
  | some n =>
    induction n using Node.ind with
    | h k v l r lvl ihl ihr =>
      intro hb
      rw [obst_some] at hb
      obtain ⟨hbl, hbr, hall, halr⟩ := hb
      rcases lt_trichotomy key k with h1 | h1 | h1
      · have hstep : OBst (some (linkInsert l key value).2) := by
          cases l with
          | none =>
            rw [linkInsert_none]
            dsimp only
            rw [Node.new, obst_some]
            exact ⟨obst_none, obst_none, oall_none _, oall_none _⟩
          | some m => exact ihl m rfl hbl
        have hstepall : OAll (· < k) (some (linkInsert l key value).2) :=
          oall_insert key value l hall h1
        rcases hq : linkInsert l key value with ⟨o, cc⟩
        rw [hq] at hstep hstepall
        replace hstep : OBst (some cc) := hstep
        replace hstepall : OAll (· < k) (some cc) := hstepall
        have hx : OBst (some (⟨k, v, some cc, r, lvl⟩ : Node K V)) := by
          rw [obst_some]
          exact ⟨hstep, hbr, hstepall, halr⟩
        cases o with
        | none =>
          have heq : linkInsert (some ⟨k, v, l, r, lvl⟩) key value
              = (none, split (skew ⟨k, v, some cc, r, lvl⟩)) := by
            rw [linkInsert_some, if_pos h1, hq]
          rw [heq]
          dsimp only
          exact obst_split _ (obst_skew _ hx)
        | some v₀ =>
          have heq : linkInsert (some ⟨k, v, l, r, lvl⟩) key value
              = (some v₀, ⟨k, v, some cc, r, lvl⟩) := by
            rw [linkInsert_some, if_pos h1, hq]
          rw [heq]
          dsimp only
          exact hx
      · have hn1 : ¬ key < k := by rw [h1]; exact lt_irrefl k
        have hn2 : ¬ k < key := by rw [h1]; exact lt_irrefl k
        have heq : linkInsert (some ⟨k, v, l, r, lvl⟩) key value
            = (some v, ⟨key, value, l, r, lvl⟩) := by
          rw [linkInsert_some, if_neg hn1, if_neg hn2]
        rw [heq]
        dsimp only
        rw [obst_some]
        rw [h1]
        exact ⟨hbl, hbr, hall, halr⟩
      · have hn1 : ¬ key < k := h1.asymm
        have hstep : OBst (some (linkInsert r key value).2) := by
          cases r with
          | none =>
            rw [linkInsert_none]
            dsimp only
            rw [Node.new, obst_some]
            exact ⟨obst_none, obst_none, oall_none _, oall_none _⟩
          | some m => exact ihr m rfl hbr
        have hstepall : OAll (k < ·) (some (linkInsert r key value).2) :=
          oall_insert key value r halr h1
        rcases hq : linkInsert r key value with ⟨o, cc⟩
        rw [hq] at hstep hstepall
        replace hstep : OBst (some cc) := hstep
        replace hstepall : OAll (k < ·) (some cc) := hstepall
        have hx : OBst (some (⟨k, v, l, some cc, lvl⟩ : Node K V)) := by
          rw [obst_some]
          exact ⟨hbl, hstep, hall, hstepall⟩
        cases o with
        | none =>
          have heq : linkInsert (some ⟨k, v, l, r, lvl⟩) key value
              = (none, split (skew ⟨k, v, l, some cc, lvl⟩)) := by
            rw [linkInsert_some, if_neg hn1, if_pos h1, hq]
          rw [heq]
          dsimp only
          exact obst_split _ (obst_skew _ hx)
        | some v₀ =>
          have heq : linkInsert (some ⟨k, v, l, r, lvl⟩) key value
              = (some v₀, ⟨k, v, l, some cc, lvl⟩) := by
            rw [linkInsert_some, if_neg hn1, if_pos h1, hq]
          rw [heq]
          dsimp only
          exact hx

end InsertBst

/-! ### `find` after `insert` -/

section FindInsert

variable [LinearOrder K]

theorem find_new (key key' : K) (value : V) :
    linkFind (some (Node.new key value)) key' =
      if key' = key then some value else none := by
  rw [Node.new, linkFind_some]
  rcases lt_trichotomy key' key with h | h | h
  · rw [if_pos h, if_neg h.ne, linkFind_none]
  · rw [if_neg (by rw [h]; exact lt_irrefl key), if_neg (by rw [h]; exact lt_irrefl key),
      if_pos h]
  · rw [if_neg h.asymm, if_pos h, if_neg h.ne', linkFind_none]

/-- The central `find`/`insert` exchange law: after inserting `(key,
value)` into a BST, `find key'` returns `value` for `key' = key` and
is otherwise unchanged. -/
theorem find_insert (key : K) (value : V) :
    ∀ link : Option (Node K V), OBst link → ∀ key' : K,
      linkFind (some (linkInsert link key value).2) key' =
        if key' = key then some value else linkFind link key' := by
  intro link
  cases link with
  | none =>
    intro _ key'
    rw [linkInsert_none]
    dsimp only
    rw [find_new, linkFind_none]
  | some n =>
    induction n using Node.ind with
    | h k v l r lvl ihl ihr =>
      intro hb key'
      have hb' := hb
      rw [obst_some] at hb'
      obtain ⟨hbl, hbr, hall, halr⟩ := hb'
      rcases lt_trichotomy key k with h1 | h1 | h1
      · have hstep : ∀ q : K, linkFind (some (linkInsert l key value).2) q =
            if q = key then some value else linkFind l q := by
          cases l with
          | none =>
            intro q
            rw [linkInsert_none]
            dsimp only
            rw [find_new, linkFind_none]
          | some m => exact ihl m rfl hbl
        have hstepall : OAll (· < k) (some (linkInsert l key value).2) :=
          oall_insert key value l hall h1
        have hstepbst : OBst (some (linkInsert l key value).2) :=
          obst_insert key value l hbl
        rcases hq : linkInsert l key value with ⟨o, cc⟩
        rw [hq] at hstep hstepall hstepbst
        replace hstep : ∀ q : K, linkFind (some cc) q =
            if q = key then some value else linkFind l q := hstep
        replace hstepall : OAll (· < k) (some cc) := hstepall
        replace hstepbst : OBst (some cc) := hstepbst
        have hx : OBst (some (⟨k, v, some cc, r, lvl⟩ : Node K V)) := by
          rw [obst_some]
          exact ⟨hstepbst, hbr, hstepall, halr⟩
        have hcore : linkFind (some (⟨k, v, some cc, r, lvl⟩ : Node K V)) key' =
            if key' = key then some value
            else linkFind (some (⟨k, v, l, r, lvl⟩ : Node K V)) key' := by
          rw [linkFind_some, linkFind_some]
          by_cases hk2 : key' = key
          · subst hk2
            simp [h1, hstep]
          · simp only [if_neg hk2]
            rcases lt_trichotomy key' k with h2 | h2 | h2
            · simp [h2, hstep, hk2]
            · have hn3 : ¬ key' < k := by rw [h2]; exact lt_irrefl k
              have hn4 : ¬ k < key' := by rw [h2]; exact lt_irrefl k
              simp [hn3, hn4]
            · simp [h2, h2.asymm]
        cases o with
        | none =>
          have heq : linkInsert (some ⟨k, v, l, r, lvl⟩) key value
              = (none, split (skew ⟨k, v, some cc, r, lvl⟩)) := by
            rw [linkInsert_some, if_pos h1, hq]
          rw [heq]
          dsimp only
          rw [find_split _ (obst_skew _ hx) key', find_skew _ hx key']
          exact hcore
        | some v₀ =>
          have heq : linkInsert (some ⟨k, v, l, r, lvl⟩) key value
              = (some v₀, ⟨k, v, some cc, r, lvl⟩) := by
            rw [linkInsert_some, if_pos h1, hq]
          rw [heq]
          dsimp only
          exact hcore
      · have hn1 : ¬ key < k := by rw [h1]; exact lt_irrefl k
        have hn2 : ¬ k < key := by rw [h1]; exact lt_irrefl k
        have heq : linkInsert (some ⟨k, v, l, r, lvl⟩) key value
            = (some v, ⟨key, value, l, r, lvl⟩) := by
          rw [linkInsert_some, if_neg hn1, if_neg hn2]
        rw [heq]
        dsimp only
        rw [linkFind_some, linkFind_some]
        subst h1
        by_cases hk2 : key' = key
        · subst hk2
          simp
        · simp only [if_neg hk2]
          rcases lt_trichotomy key' key with h2 | h2 | h2
          · simp [h2]
          · exact absurd h2 hk2
          · simp [h2, h2.asymm]
      · have hn1 : ¬ key < k := h1.asymm
        have hstep : ∀ q : K, linkFind (some (linkInsert r key value).2) q =
            if q = key then some value else linkFind r q := by
          cases r with
          | none =>
            intro q
            rw [linkInsert_none]
            dsimp only
            rw [find_new, linkFind_none]
          | some m => exact ihr m rfl hbr
        have hstepall : OAll (k < ·) (some (linkInsert r key value).2) :=
          oall_insert key value r halr h1
        have hstepbst : OBst (some (linkInsert r key value).2) :=
          obst_insert key value r hbr
        rcases hq : linkInsert r key value with ⟨o, cc⟩
        rw [hq] at hstep hstepall hstepbst
        replace hstep : ∀ q : K, linkFind (some cc) q =
            if q = key then some value else linkFind r q := hstep
        replace hstepall : OAll (k < ·) (some cc) := hstepall
        replace hstepbst : OBst (some cc) := hstepbst
        have hx : OBst (some (⟨k, v, l, some cc, lvl⟩ : Node K V)) := by
          rw [obst_some]
          exact ⟨hbl, hstepbst, hall, hstepall⟩
        have hcore : linkFind (some (⟨k, v, l, some cc, lvl⟩ : Node K V)) key' =
            if key' = key then some value
            else linkFind (some (⟨k, v, l, r, lvl⟩ : Node K V)) key' := by
          rw [linkFind_some, linkFind_some]
          by_cases hk2 : key' = key
          · subst hk2
            simp [h1, h1.asymm, hstep]
          · simp only [if_neg hk2]
            rcases lt_trichotomy key' k with h2 | h2 | h2
            · simp [h2]
            · have hn3 : ¬ key' < k := by rw [h2]; exact lt_irrefl k
              have hn4 : ¬ k < key' := by rw [h2]; exact lt_irrefl k
              simp [hn3, hn4]
            · simp [h2, h2.asymm, hstep, hk2]
        cases o with
        | none =>
          have heq : linkInsert (some ⟨k, v, l, r, lvl⟩) key value
              = (none, split (skew ⟨k, v, l, some cc, lvl⟩)) := by
            rw [linkInsert_some, if_neg hn1, if_pos h1, hq]
          rw [heq]
          dsimp only
          rw [find_split _ (obst_skew _ hx) key', find_skew _ hx key']
          exact hcore
        | some v₀ =>
          have heq : linkInsert (some ⟨k, v, l, r, lvl⟩) key value
              = (some v₀, ⟨k, v, l, some cc, lvl⟩) := by
            rw [linkInsert_some, if_neg hn1, if_pos h1, hq]
          rw [heq]
          dsimp only
          exact hcore

/-- A fresh insert adds exactly one reachable node; an overwriting
insert adds none. -/
theorem numNodes_insert (key : K) (value : V) :
    ∀ link : Option (Node K V),
      numNodes (some (linkInsert link key value).2) =
        numNodes link + (if ((linkInsert link key value).1).isNone then 1 else 0) := by
  intro link
  cases link with
  | none =>
    rw [linkInsert_none]
    dsimp only
    rw [Node.new]
    simp
  | some n =>
    induction n using Node.ind with
    | h k v l r lvl ihl ihr =>
      rcases lt_trichotomy key k with h1 | h1 | h1
      · have hstep : numNodes (some (linkInsert l key value).2) =
            numNodes l + (if ((linkInsert l key value).1).isNone then 1 else 0) := by
          cases l with
          | none =>
            rw [linkInsert_none]
            dsimp only
            rw [Node.new]
            simp
          | some m => exact ihl m rfl
        rcases hq : linkInsert l key value with ⟨o, cc⟩
        rw [hq] at hstep
        cases o with
        | none =>
          replace hstep : numNodes (some cc) = numNodes l + 1 := by simpa using hstep
          have heq : linkInsert (some ⟨k, v, l, r, lvl⟩) key value
              = (none, split (skew ⟨k, v, some cc, r, lvl⟩)) := by
            rw [linkInsert_some, if_pos h1, hq]
          rw [heq]
          dsimp only
          rw [numNodes_split, numNodes_skew, numNodes_some, numNodes_some]
          simp only [Option.isNone_none, if_true]
          omega
        | some v₀ =>
          replace hstep : numNodes (some cc) = numNodes l := by simpa using hstep
          have heq : linkInsert (some ⟨k, v, l, r, lvl⟩) key value
              = (some v₀, ⟨k, v, some cc, r, lvl⟩) := by
            rw [linkInsert_some, if_pos h1, hq]
          rw [heq]
          dsimp only
          rw [numNodes_some, numNodes_some]
          simp only [Option.isNone_some, Bool.false_eq_true, if_false]
          omega
      · have hn1 : ¬ key < k := by rw [h1]; exact lt_irrefl k
        have hn2 : ¬ k < key := by rw [h1]; exact lt_irrefl k
        have heq : linkInsert (some ⟨k, v, l, r, lvl⟩) key value
            = (some v, ⟨key, value, l, r, lvl⟩) := by
          rw [linkInsert_some, if_neg hn1, if_neg hn2]
        rw [heq]
        dsimp only
        rw [numNodes_some, numNodes_some]
        simp
      · have hn1 : ¬ key < k := h1.asymm
        have hstep : numNodes (some (linkInsert r key value).2) =
            numNodes r + (if ((linkInsert r key value).1).isNone then 1 else 0) := by
          cases r with
          | none =>
            rw [linkInsert_none]
            dsimp only
            rw [Node.new]
            simp
          | some m => exact ihr m rfl
        rcases hq : linkInsert r key value with ⟨o, cc⟩
        rw [hq] at hstep
        cases o with
        | none =>
          replace hstep : numNodes (some cc) = numNodes r + 1 := by simpa using hstep
          have heq : linkInsert (some ⟨k, v, l, r, lvl⟩) key value
              = (none, split (skew ⟨k, v, l, some cc, lvl⟩)) := by
            rw [linkInsert_some, if_neg hn1, if_pos h1, hq]
          rw [heq]
          dsimp only
          rw [numNodes_split, numNodes_skew, numNodes_some, numNodes_some]
          simp only [Option.isNone_none, if_true]
          omega
        | some v₀ =>
          replace hstep : numNodes (some cc) = numNodes r := by simpa using hstep
          have heq : linkInsert (some ⟨k, v, l, r, lvl⟩) key value
              = (some v₀, ⟨k, v, l, some cc, lvl⟩) := by
            rw [linkInsert_some, if_neg hn1, if_pos h1, hq]
          rw [heq]
          dsimp only
          rw [numNodes_some, numNodes_some]
          simp only [Option.isNone_some, Bool.false_eq_true, if_false]
          omega

end FindInsert


section UpdateKV

variable [LinearOrder K]

theorem updateKV_node (key : K) (value : V) (k : K) (v : V)
    (l r : Option (Node K V)) (lvl : Nat) :
    Node.updateKV key value (⟨k, v, l, r, lvl⟩ : Node K V) =
      if key < k then
        ⟨k, v,
          (match l with
           | none => none
           | some n => some (Node.updateKV key value n)), r, lvl⟩
      else if k < key then
        ⟨k, v, l,
          (match r with
           | none => none
           | some n => some (Node.updateKV key value n)), lvl⟩
      else ⟨key, value, l, r, lvl⟩ := by
  cases l <;> cases r <;> rfl

/-- When the key is already present, `insert` returns the old value
paired with the tree in which only the matched node's key and value
were replaced: no rotation, level change or node creation happens. -/
theorem insert_found (key : K) (value : V) :
    ∀ n : Node K V, linkFind (some n) key ≠ none →
      linkInsert (some n) key value =
        (linkFind (some n) key, n.updateKV key value) := by
  intro n
  induction n using Node.ind with
  | h k v l r lvl ihl ihr =>
    intro hfind
    rw [linkFind_some] at hfind ⊢
    rcases lt_trichotomy key k with h1 | h1 | h1
    · rw [if_pos h1] at hfind ⊢
      cases l with
      | none => exact absurd rfl hfind
      | some m =>
        obtain ⟨v₀, hv⟩ : ∃ v₀, linkFind (some m) key = some v₀ :=
          Option.ne_none_iff_exists'.mp hfind
        have hins := ihl m rfl hfind
        rw [hv] at hins ⊢
        have hupd : Node.updateKV key value (⟨k, v, some m, r, lvl⟩ : Node K V)
            = ⟨k, v, some (Node.updateKV key value m), r, lvl⟩ := by
          rw [updateKV_node, if_pos h1]
        rw [hupd, linkInsert_some, if_pos h1, hins]
    · have hn1 : ¬ key < k := by rw [h1]; exact lt_irrefl k
      have hn2 : ¬ k < key := by rw [h1]; exact lt_irrefl k
      rw [if_neg hn1, if_neg hn2] at hfind ⊢
      have hupd : Node.updateKV key value (⟨k, v, l, r, lvl⟩ : Node K V)
          = ⟨key, value, l, r, lvl⟩ := by
        rw [updateKV_node, if_neg hn1, if_neg hn2]
      rw [hupd, linkInsert_some, if_neg hn1, if_neg hn2]
    · have hn1 : ¬ key < k := h1.asymm
      rw [if_neg hn1, if_pos h1] at hfind ⊢
      cases r with
      | none => exact absurd rfl hfind
      | some m =>
        obtain ⟨v₀, hv⟩ : ∃ v₀, linkFind (some m) key = some v₀ :=
          Option.ne_none_iff_exists'.mp hfind
        have hins := ihr m rfl hfind
        rw [hv] at hins ⊢
        have hupd : Node.updateKV key value (⟨k, v, l, some m, lvl⟩ : Node K V)
            = ⟨k, v, l, some (Node.updateKV key value m), lvl⟩ := by
          rw [updateKV_node, if_neg hn1, if_pos h1]
        rw [hupd, linkInsert_some, if_neg hn1, if_pos h1, hins]

/-- Replacing the stored pair at `key` with exactly the stored pair is
the identity. -/
theorem updateKV_self (key : K) (value : V) :
    ∀ n : Node K V, linkFind (some n) key = some value →
      n.updateKV key value = n := by
  intro n
  induction n using Node.ind with
  | h k v l r lvl ihl ihr =>
    intro hfind
    rw [linkFind_some] at hfind
    rcases lt_trichotomy key k with h1 | h1 | h1
    · rw [if_pos h1] at hfind
      cases l with
      | none => rw [linkFind_none] at hfind; cases hfind
      | some m =>
        rw [updateKV_node, if_pos h1]
        dsimp only
        rw [ihl m rfl hfind]
    · have hn1 : ¬ key < k := by rw [h1]; exact lt_irrefl k
      have hn2 : ¬ k < key := by rw [h1]; exact lt_irrefl k
      rw [if_neg hn1, if_neg hn2] at hfind
      rw [updateKV_node, if_neg hn1, if_neg hn2, h1]
      cases hfind
      rfl
    · have hn1 : ¬ key < k := h1.asymm
      rw [if_neg hn1, if_pos h1] at hfind
      cases r with
      | none => rw [linkFind_none] at hfind; cases hfind
      | some m =>
        rw [updateKV_node, if_neg hn1, if_pos h1]
        dsimp only
        rw [ihr m rfl hfind]

end UpdateKV

/-! ### Tree-level lemmas and the reachable-state invariant -/

section TreeLevel

variable [LinearOrder K]

theorem tree_insert_root (t : Tree K V) (key : K) (value : V) :
    ((t.insert key value).2).root = some (linkInsert t.root key value).2 := by
  unfold Tree.insert
  rcases hq : linkInsert t.root key value with ⟨o, cc⟩
  cases o <;> rfl

theorem tree_insert_fst (t : Tree K V) (key : K) (value : V) :
    (t.insert key value).1 = (linkInsert t.root key value).1 := by
  unfold Tree.insert
  rcases hq : linkInsert t.root key value with ⟨o, cc⟩
  cases o <;> rfl

theorem tree_insert_size (t : Tree K V) (key : K) (value : V) :
    ((t.insert key value).2).size =
      if ((linkInsert t.root key value).1).isNone then t.size + 1 else t.size := by
  unfold Tree.insert
  rcases hq : linkInsert t.root key value with ⟨o, cc⟩
  cases o <;> rfl

theorem tree_find_insert (t : Tree K V) (hb : OBst t.root) (key : K) (value : V)
    (key' : K) :
    ((t.insert key value).2).find key' =
      if key' = key then some value else t.find key' := by
  unfold Tree.find
  rw [tree_insert_root]
  exact find_insert key value t.root hb key'

/-- Representation invariant of API-reachable trees: BST order, the
strong AA shape, and an accurate `size` field. -/
def TreeInv (t : Tree K V) : Prop :=
  OBst t.root ∧ OAa t.root ∧ t.size = numNodes t.root

theorem treeInv_new : TreeInv (Tree.new : Tree K V) :=
  ⟨obst_none, oaa_none, by simp [Tree.new]⟩

theorem treeInv_insert (t : Tree K V) (key : K) (value : V) (h : TreeInv t) :
    TreeInv (t.insert key value).2 := by
  obtain ⟨hb, ha, hs⟩ := h
  refine ⟨?_, ?_, ?_⟩
  · rw [tree_insert_root]
    exact obst_insert key value t.root hb
  · rw [tree_insert_root]
    exact (insPost_of_aa key value t.root ha).1
  · rw [tree_insert_size, tree_insert_root, numNodes_insert]
    cases hio : ((linkInsert t.root key value).1).isNone <;> simp [hio, hs]

theorem treeInv_insertList (ops : List (K × V)) :
    TreeInv (insertList ops : Tree K V) := by
  suffices h : ∀ (ops : List (K × V)) (t : Tree K V), TreeInv t →
      TreeInv (ops.foldl (fun t p => (t.insert p.1 p.2).2) t) by
    exact h ops Tree.new treeInv_new
  intro ops
  induction ops with
  | nil => intro t ht; exact ht
  | cons p rest ih =>
    intro t ht
    exact ih _ (treeInv_insert t p.1 p.2 ht)

/-- `find` over a whole insertion history: the last write to a key
wins, keys never written are absent. -/
theorem find_insertList (ops : List (K × V)) (k : K) :
    (insertList ops : Tree K V).find k = lastVal ops k := by
  induction ops using List.reverseRecOn with
  | nil => rfl
  | append_singleton rest p ih =>
    have hb : OBst (insertList rest : Tree K V).root :=
      (treeInv_insertList rest).1
    have hsplit1 : (insertList (rest ++ [p]) : Tree K V)
        = ((insertList rest).insert p.1 p.2).2 := by
      simp only [insertList, List.foldl_append, List.foldl_cons, List.foldl_nil]
    have hsplit2 : lastVal (rest ++ [p]) k
        = if p.1 = k then some p.2 else lastVal rest k := by
      simp only [lastVal, List.foldl_append, List.foldl_cons, List.foldl_nil]
    rw [hsplit1, tree_find_insert _ hb p.1 p.2 k, hsplit2, ih]
    by_cases hk : k = p.1
    · simp [hk]
    · rw [if_neg hk, if_neg (fun h => hk h.symm)]

end TreeLevel

/-! ### Checker wrappers at the tree level -/

section TreeCheckers

variable [LinearOrder K]

theorem tree_is_bst_of (t : Tree K V) (h : OBst t.root) : t.is_bst = true := by
  unfold Tree.is_bst
  cases hr : t.root with
  | none => rfl
  | some n => exact is_bst_of_obst n (hr ▸ h)

theorem tree_is_aa_of (t : Tree K V) (hb : OBst t.root) (ha : OAa t.root) :
    t.is_aa = true := by
  unfold Tree.is_aa
  cases hr : t.root with
  | none => rfl
  | some n => exact is_aa_of_inv n (hr ▸ hb) (hr ▸ ha)

end TreeCheckers

/-! ### The claims -/

section Claims

variable [LinearOrder K]

/-- C1: for every sequence of `insert(key, value)` calls starting from
the tree built by `new()`, after every individual insertion both
`is_bst` and `is_aa` return true.  (Quantifying over all operation
lists covers every intermediate tree, since each prefix is itself such
a list.) -/
theorem claim_C1 (ops : List (K × V)) :
    (insertList ops : Tree K V).is_bst = true ∧
    (insertList ops : Tree K V).is_aa = true := by
  obtain ⟨hb, ha, -⟩ := treeInv_insertList (K := K) (V := V) ops
  exact ⟨tree_is_bst_of _ hb, tree_is_aa_of _ hb ha⟩

/-- C2: after any insertion sequence, `find k` returns the value of
the last insert of `k` (`Some v` when `k` was inserted with `v` and
not overwritten later), and `none` when `k` was never inserted; on the
empty tree `find` returns `none`. -/
theorem claim_C2 (ops : List (K × V)) (k : K) :
    (insertList ops : Tree K V).find k = lastVal ops k ∧
    (Tree.new : Tree K V).find k = none :=
  ⟨find_insertList ops k, rfl⟩

/-- C3: `insert` on a present key returns `Some` of the stored value
and leaves `size` unchanged; on a fresh key it returns `None` and
increments `size` by exactly one. -/
theorem claim_C3 (t : Tree K V) (k : K) (v : V) :
    (∀ v₀ : V, t.find k = some v₀ →
      (t.insert k v).1 = some v₀ ∧ ((t.insert k v).2).size = t.size) ∧
    (t.find k = none →
      (t.insert k v).1 = none ∧ ((t.insert k v).2).size = t.size + 1) := by
  have hfst : (t.insert k v).1 = t.find k := by
    rw [tree_insert_fst, linkInsert_fst]
    rfl
  have hsz := tree_insert_size t k v
  have hlf : (linkInsert t.root k v).1 = t.find k := by
    rw [linkInsert_fst]
    rfl
  constructor
  · intro v₀ h
    refine ⟨by rw [hfst, h], ?_⟩
    rw [hsz, hlf, h]
    rfl
  · intro h
    refine ⟨by rw [hfst, h], ?_⟩
    rw [hsz, hlf, h]
    rfl

theorem claim_C3_witness :
    (((Tree.new : Tree Nat Nat).insert 1 10).2.find 1 = some 10 ∧
      (((Tree.new : Tree Nat Nat).insert 1 10).2.insert 1 99).1 = some 10 ∧
      ((((Tree.new : Tree Nat Nat).insert 1 10).2.insert 1 99).2).size =
        ((Tree.new : Tree Nat Nat).insert 1 10).2.size) ∧
    ((Tree.new : Tree Nat Nat).find 5 = none ∧
      ((Tree.new : Tree Nat Nat).insert 5 7).1 = none ∧
      (((Tree.new : Tree Nat Nat).insert 5 7).2).size = (Tree.new : Tree Nat Nat).size + 1) :=
  ⟨⟨rfl, (claim_C3 ((Tree.new : Tree Nat Nat).insert 1 10).2 1 99).1 10 rfl⟩,
   ⟨rfl, (claim_C3 (Tree.new : Tree Nat Nat) 5 7).2 rfl⟩⟩

/-- C4: `skew` rotates right exactly when the left child exists at the
node's own level — the left child becomes the subtree root, the old
node its right child, and the old node's left pointer takes the
rotated child's former right pointer — and otherwise leaves the
subtree unchanged. -/
theorem claim_C4 (n : Node K V) :
    (∀ l : Node K V, n.left = some l → l.level = n.level →
      skew n = ⟨l.key, l.value, l.left,
        some ⟨n.key, n.value, l.right, n.right, n.level⟩, l.level⟩) ∧
    ((∀ l : Node K V, n.left = some l → l.level ≠ n.level) → skew n = n) := by
  obtain ⟨k, v, l, r, lvl⟩ := n
  constructor
  · intro ml hml hlv
    simp only [Node.left_mk] at hml
    subst hml
    simp only [Node.level_mk] at hlv
    rw [skew_lsome, if_pos hlv]
    simp only [Node.key_mk, Node.value_mk, Node.right_mk, Node.level_mk]
  · intro hno
    cases l with
    | none => rfl
    | some ml =>
      rw [skew_lsome, if_neg (by simpa using hno ml rfl)]

theorem claim_C4_witness :
    skew (⟨5, 0, some ⟨3, 1, none, none, 1⟩, none, 1⟩ : Node Nat Nat)
        = ⟨3, 1, none, some ⟨5, 0, none, none, 1⟩, 1⟩ ∧
    skew (⟨5, 0, some ⟨3, 1, none, none, 1⟩, none, 2⟩ : Node Nat Nat)
        = ⟨5, 0, some ⟨3, 1, none, none, 1⟩, none, 2⟩ :=
  ⟨(claim_C4 (⟨5, 0, some ⟨3, 1, none, none, 1⟩, none, 1⟩ : Node Nat Nat)).1
      ⟨3, 1, none, none, 1⟩ rfl rfl,
   (claim_C4 (⟨5, 0, some ⟨3, 1, none, none, 1⟩, none, 2⟩ : Node Nat Nat)).2
      (fun l hl => by cases hl; decide)⟩

/-- C5: `split` rotates left exactly when the right child and its own
right child exist with the grandchild at the node's level — the right
child becomes the subtree root with its level incremented by one, the
old node its left child, and the old node's right pointer takes the
rotated child's former left pointer — and otherwise leaves the
subtree unchanged. -/
theorem claim_C5 (n : Node K V) :
    (∀ r rr : Node K V, n.right = some r → r.right = some rr → rr.level = n.level →
      split n = ⟨r.key, r.value,
        some ⟨n.key, n.value, n.left, r.left, n.level⟩, r.right, r.level + 1⟩) ∧
    ((∀ r rr : Node K V, n.right = some r → r.right = some rr → rr.level ≠ n.level) →
      split n = n) := by
  obtain ⟨k, v, l, r, lvl⟩ := n
  constructor
  · intro mr rr hmr hrr hlv
    simp only [Node.right_mk] at hmr
    cases hmr
    simp only [Node.level_mk] at hlv
    rw [split_fire k v l mr lvl rr hrr hlv]
    simp only [Node.key_mk, Node.value_mk, Node.left_mk, Node.level_mk]
  · intro hno
    cases r with
    | none => rfl
    | some mr =>
      cases hmr : mr.right with
      | none => rw [split_rsome, hmr]
      | some rr =>
        apply split_id_of
        simp only [oright_some, hmr, olvl_some]
        simpa using hno mr rr rfl hmr

theorem claim_C5_witness :
    split (⟨2, 0, none, some ⟨4, 1, none, some ⟨6, 2, none, none, 1⟩, 1⟩, 1⟩ : Node Nat Nat)
        = ⟨4, 1, some ⟨2, 0, none, none, 1⟩, some ⟨6, 2, none, none, 1⟩, 2⟩ ∧
    split (⟨2, 0, none, some ⟨4, 1, none, some ⟨6, 2, none, none, 1⟩, 1⟩, 2⟩ : Node Nat Nat)
        = ⟨2, 0, none, some ⟨4, 1, none, some ⟨6, 2, none, none, 1⟩, 1⟩, 2⟩ :=
  ⟨(claim_C5 (⟨2, 0, none, some ⟨4, 1, none, some ⟨6, 2, none, none, 1⟩, 1⟩, 1⟩ : Node Nat Nat)).1
      ⟨4, 1, none, some ⟨6, 2, none, none, 1⟩, 1⟩ ⟨6, 2, none, none, 1⟩ rfl rfl rfl,
   (claim_C5 (⟨2, 0, none, some ⟨4, 1, none, some ⟨6, 2, none, none, 1⟩, 1⟩, 2⟩ : Node Nat Nat)).2
      (fun r rr hr hrr => by cases hr; cases hrr; decide)⟩

/-- C6: inserting an already-present key performs no structural
change: the result is the same tree with only the matched node's
stored key and value replaced by the caller's arguments (`updateKV`),
and `size` is unchanged. -/
theorem claim_C6 (t : Tree K V) (k : K) (v v₀ : V) (h : t.find k = some v₀) :
    (t.insert k v).1 = some v₀ ∧
    (t.insert k v).2 = ⟨Option.map (Node.updateKV k v) t.root, t.size⟩ := by
  cases hr : t.root with
  | none =>
    have h2 : linkFind t.root k = some v₀ := h
    rw [hr, linkFind_none] at h2
    cases h2
  | some n =>
    have hfind : linkFind (some n) k = some v₀ := by
      have h2 : linkFind t.root k = some v₀ := h
      rw [hr] at h2
      exact h2
    have hne : linkFind (some n) k ≠ none := by rw [hfind]; exact Option.some_ne_none v₀
    have hins := insert_found k v n hne
    rw [hfind] at hins
    have hfst := tree_insert_fst t k v
    have hroot := tree_insert_root t k v
    have hsz := tree_insert_size t k v
    rw [hr, hins] at hfst hroot hsz
    refine ⟨hfst, ?_⟩
    have hsz' : ((t.insert k v).2).size = t.size := by
      rw [hsz]
      rfl
    have : (⟨((t.insert k v).2).root, ((t.insert k v).2).size⟩ : Tree K V)
        = ⟨some (Node.updateKV k v n), t.size⟩ := by
      rw [hroot, hsz']
    exact this

theorem claim_C6_witness :
    ((Tree.new : Tree Nat Nat).insert 1 10).2.find 1 = some 10 ∧
    (((Tree.new : Tree Nat Nat).insert 1 10).2.insert 1 99).1 = some 10 ∧
    (((Tree.new : Tree Nat Nat).insert 1 10).2.insert 1 99).2 =
      ⟨Option.map (Node.updateKV 1 99) ((Tree.new : Tree Nat Nat).insert 1 10).2.root,
        ((Tree.new : Tree Nat Nat).insert 1 10).2.size⟩ :=
  ⟨rfl, claim_C6 ((Tree.new : Tree Nat Nat).insert 1 10).2 1 99 10 rfl⟩

/-- C7: after every sequence of public operations from `new()`, the
`size` field equals the number of nodes reachable from the root
(`find` takes the tree immutably, so insertion sequences cover all
mutations). -/
theorem claim_C7 (ops : List (K × V)) :
    (insertList ops : Tree K V).size = numNodes (insertList ops : Tree K V).root :=
  (treeInv_insertList ops).2.2

/-- C8: inserting the same (key, value) pair twice in succession
yields exactly the same tree as inserting it once, and the second
insert returns `Some` of the value just inserted. -/
theorem claim_C8 (ops : List (K × V)) (k : K) (v : V) :
    ((((insertList ops : Tree K V).insert k v).2).insert k v).1 = some v ∧
    ((((insertList ops : Tree K V).insert k v).2).insert k v).2 =
      ((insertList ops : Tree K V).insert k v).2 := by
  have ht := treeInv_insertList (K := K) (V := V) ops
  have hfound : (((insertList ops : Tree K V).insert k v).2).find k = some v := by
    rw [tree_find_insert _ ht.1 k v k, if_pos rfl]
  have hroot := tree_insert_root (insertList ops : Tree K V) k v
  obtain ⟨v', hcc⟩ : ∃ cc, (((insertList ops : Tree K V).insert k v).2).root = some cc :=
    ⟨_, hroot⟩
  have hfind : linkFind (some v') k = some v := by
    have h2 : linkFind (((insertList ops : Tree K V).insert k v).2).root k = some v := hfound
    rw [hcc] at h2
    exact h2
  have hne : linkFind (some v') k ≠ none := by rw [hfind]; exact Option.some_ne_none v
  have hins := insert_found k v v' hne
  rw [hfind, updateKV_self k v v' hfind] at hins
  set t1 := (((insertList ops : Tree K V).insert k v).2) with ht1
  have hfst := tree_insert_fst t1 k v
  have hroot2 := tree_insert_root t1 k v
  have hsz := tree_insert_size t1 k v
  rw [hcc, hins] at hfst hroot2 hsz
  refine ⟨hfst, ?_⟩
  have : (⟨((t1.insert k v).2).root, ((t1.insert k v).2).size⟩ : Tree K V)
      = ⟨t1.root, t1.size⟩ := by
    rw [hroot2, hsz, hcc]
    rfl
  exact this

/-- C9: `skew` and `split` preserve the stored (key, value) pairs (the
whole in-order traversal) and preserve the BST ordering property. -/
theorem claim_C9 (n : Node K V) :
    inorder (some (skew n)) = inorder (some n) ∧
    inorder (some (split n)) = inorder (some n) ∧
    (Node.is_bst n = true →
      Node.is_bst (skew n) = true ∧ Node.is_bst (split n) = true) := by
  refine ⟨inorder_skew n, inorder_split n, fun h => ?_⟩
  have hb := obst_of_is_bst n h
  exact ⟨is_bst_of_obst _ (obst_skew n hb), is_bst_of_obst _ (obst_split n hb)⟩

theorem claim_C9_witness :
    Node.is_bst (⟨2, 0, some ⟨1, 0, none, none, 1⟩, none, 1⟩ : Node Nat Nat) = true ∧
    (Node.is_bst (skew (⟨2, 0, some ⟨1, 0, none, none, 1⟩, none, 1⟩ : Node Nat Nat)) = true ∧
     Node.is_bst (split (⟨2, 0, some ⟨1, 0, none, none, 1⟩, none, 1⟩ : Node Nat Nat)) = true) :=
  ⟨rfl, (claim_C9 (⟨2, 0, some ⟨1, 0, none, none, 1⟩, none, 1⟩ : Node Nat Nat)).2.2 rfl⟩

/-- C10: `is_aa` never compares a node's level against its absent
children, so a childless node of level 2 (which violates the
conceptual leaf-level rule) still passes the checker. -/
theorem claim_C10 :
    Node.is_aa (⟨0, 0, none, none, 2⟩ : Node Nat Nat) = true ∧
    (⟨0, 0, none, none, 2⟩ : Node Nat Nat).left = none ∧
    (⟨0, 0, none, none, 2⟩ : Node Nat Nat).right = none ∧
    1 < (⟨0, 0, none, none, 2⟩ : Node Nat Nat).level :=
  ⟨rfl, rfl, rfl, by decide⟩

end Claims

end AA
